import Mathlib

/-
  Verification of the concurrent task dispatch core of `rust-playground-2`
  (src/concurrency.rs) against its natural-language specification.

  The Rust code is shallowly embedded:
  * pure computations (`parallel_computation`'s chunked sum of squares)
    become Lean functions over `List Int`;
  * the fan-out/fan-in pattern (spawn one task per chunk, join the handles
    in spawn order, fold the partial results) becomes an executable model
    in which a "completion order" decides when each spawned task writes its
    result, and joining reads the per-handle slots in spawn order;
  * the worker-pool pattern (`practical_patterns`, lines 354-384), the
    Arc+Mutex counter (`arc_mutex`, lines 175-197), and the ordered
    two-lock acquisition (`deadlock_prevention`, lines 272-295) become
    small-step state machines driven by an explicit schedule, so that
    every thread interleaving is one schedule value.

  The file is organised as: all definitions first, then all theorems.
-/

namespace Concurrency

/-! ## Definitions: fan-out / fan-in
(`parallel_computation`, src/concurrency.rs lines 298-321) -/

/-- Consecutive chunks of at most `n` elements, head first, as produced by
Rust's `slice::chunks(n)`.  The extra fuel argument makes the definition
structurally recursive; `chunksOf` instantiates it with enough fuel.
Rust panics on `chunks(0)`; with `n = 0` the fuel just runs out. -/
def chunksOfAux (n : Nat) : Nat → List α → List (List α)
  | 0, _ => []
  | _, [] => []
  | fuel + 1, x :: xs => (x :: xs).take n :: chunksOfAux n fuel ((x :: xs).drop n)

/-- `data.chunks(chunk_size)` from `parallel_computation`. -/
def chunksOf (n : Nat) (l : List α) : List (List α) :=
  chunksOfAux n l.length l

/-- The worker body of `parallel_computation`:
`chunk.iter().map(|x| x * x).sum::<i32>()`. -/
def sumOfSquares (chunk : List Int) : Int :=
  (chunk.map (fun x => x * x)).sum

/-- `let data: Vec<i32> = (1..=100).collect();` from `parallel_computation`. -/
def parallelData : List Int :=
  (List.range 100).map (fun i => (i : Int) + 1)

/-- The generic fan-out/fan-in dispatch the source instantiates in
`parallel_computation`: partition `items` into consecutive chunks, compute one
partial result per chunk (one spawned task each), and fold the partial results
in spawn order, which is how the code's
`handles.into_iter().map(|h| h.join().unwrap())` consumes them. -/
def dispatch_fan_out (items : List α) (chunkSize : Nat) (compute : List α → R)
    (reduce : R → R → R) (identity : R) : R :=
  (((chunksOf chunkSize items).map compute).foldl reduce identity)

/-- `parallel_computation`'s total: chunks of 25 over 1..=100, sum of squares
per chunk, partial results summed after joining the handles in spawn order. -/
def parallel_computation_total : Int :=
  dispatch_fan_out parallelData 25 sumOfSquares (fun a b => a + b) 0

/-- Run the spawned tasks in completion order `order`: task `i` finishing
writes `partials[i]` into slot `i`.  (`thread::spawn` gives one handle per
chunk; the order in which tasks finish is an arbitrary permutation of the
task indices.) -/
def execTasks (partials : List R) : (Nat → Option R) → List Nat → (Nat → Option R)
  | store, [] => store
  | store, i :: rest => execTasks partials (Function.update store i partials[i]?) rest

/-- Join the handles for the indices `idxs` in order, collecting each task's
result; `none` when some joined task never completed. -/
def joinHandles (store : Nat → Option R) : List Nat → Option (List R)
  | [] => some []
  | i :: rest =>
    match store i, joinHandles store rest with
    | some r, some rs => some (r :: rs)
    | _, _ => none

/-- The observable outcome of one fan-out/fan-in execution whose tasks
complete in the order `order`: spawn one task per chunk, let them finish in
`order`, join every handle in spawn order, fold the joined results. -/
def fanOutRun (items : List α) (chunkSize : Nat) (compute : List α → R)
    (reduce : R → R → R) (identity : R) (order : List Nat) : Option R :=
  (joinHandles
      (execTasks ((chunksOf chunkSize items).map compute) (fun _ => none) order)
      (List.range ((chunksOf chunkSize items).map compute).length)).map
    (fun rs => rs.foldl reduce identity)

/-- Spec-worded property for claim C5: the fan-out/fan-in aggregate does not
depend on the order in which the spawned tasks complete. -/
def FanOutDeterministic (items : List Int) (chunkSize : Nat)
    (compute : List Int → Int) (reduce : Int → Int → Int) (identity : Int) : Prop :=
  ∀ order₁ order₂ : List Nat,
    order₁.Perm (List.range ((chunksOf chunkSize items).map compute).length) →
    order₂.Perm (List.range ((chunksOf chunkSize items).map compute).length) →
    fanOutRun items chunkSize compute reduce identity order₁ =
      fanOutRun items chunkSize compute reduce identity order₂

/-- Spec-worded associativity of the caller-supplied reduction. -/
def AssociativeRed (reduce : Int → Int → Int) : Prop :=
  ∀ a b c, reduce (reduce a b) c = reduce a (reduce b c)

/-- Spec-worded commutativity of the caller-supplied reduction. -/
def CommutativeRed (reduce : Int → Int → Int) : Prop :=
  ∀ a b, reduce a b = reduce b a

/-- Claim C5 exactly as stated: determinism holds whenever `reduce` is
associative and commutative, and fails for some `reduce` that is not. -/
def fanOutDeterminismIffClaim : Prop :=
  (∀ (items : List Int) (chunkSize : Nat) (compute : List Int → Int)
      (reduce : Int → Int → Int) (identity : Int),
    AssociativeRed reduce ∧ CommutativeRed reduce →
      FanOutDeterministic items chunkSize compute reduce identity) ∧
  (∃ (items : List Int) (chunkSize : Nat) (compute : List Int → Int)
      (reduce : Int → Int → Int) (identity : Int),
    ¬(AssociativeRed reduce ∧ CommutativeRed reduce) ∧
      ¬FanOutDeterministic items chunkSize compute reduce identity)

/-! ## Definitions: worker pool
(`practical_patterns`, src/concurrency.rs lines 348-384)

The pattern is: an mpsc channel, its receiver shared as
`Arc<Mutex<Receiver<_>>>` by the workers, each worker looping
`let job = rx.lock().unwrap().recv();` — the temporary mutex guard is
dropped at the end of that statement, before the `match` body processes
the job — processing on `Ok(num)` and breaking on `Err(_)`.
`recv` on an mpsc channel yields buffered jobs in FIFO order and reports
disconnection only once the buffer is empty and every sender was dropped.

A worker's program counter: `idle` (about to lock), `locked` (holds the
receiver lock, inside `recv`), `processing j` (lock released, running the
job body), `done` (observed `Err`, left the loop). -/

/-- Program counter of one worker in the pool loop. -/
inductive Wpc where
  | idle
  | locked
  | processing (job : Nat)
  | done
deriving DecidableEq

/-- Global state of the worker-pool pattern: the channel buffer (FIFO, head
is next to dequeue), whether every sender was dropped (`drop(tx)`), who holds
the receiver mutex, each worker's program counter, the ghost trace of dequeue
events `(worker, job)` in dequeue order, and the ghost list of accepted
sends in send order. -/
structure PoolState (W : Nat) where
  queue : List Nat
  closed : Bool
  lockOwner : Option (Fin W)
  pc : Fin W → Wpc
  history : List (Fin W × Nat)
  sent : List Nat

/-- One scheduler action: a producer send, dropping the senders, or letting
worker `w` take its next enabled micro-step. -/
inductive PoolAction (W : Nat) where
  | send (job : Nat)
  | close
  | work (w : Fin W)

/-- The enabled micro-step of worker `w`, from the loop body
`let job = rx.lock().unwrap().recv(); match job { Ok(num) => …, Err(_) => break }`:
`idle` acquires the free mutex; `locked` dequeues the head (releasing the
guard at the end of the statement) or, with an empty buffer, returns `Err`
and breaks if the channel is closed and otherwise stays blocked inside
`recv` while holding the lock; `processing` finishes the job body and loops
around.  A worker with no enabled step leaves the state unchanged. -/
def workStep (s : PoolState W) (w : Fin W) : PoolState W :=
  match s.pc w with
  | .idle =>
    if s.lockOwner = none then
      { s with lockOwner := some w, pc := Function.update s.pc w .locked }
    else s
  | .locked =>
    match s.queue with
    | j :: rest =>
      { s with queue := rest, lockOwner := none,
               pc := Function.update s.pc w (.processing j),
               history := s.history ++ [(w, j)] }
    | [] =>
      if s.closed then
        { s with lockOwner := none, pc := Function.update s.pc w .done }
      else s
  | .processing _ => { s with pc := Function.update s.pc w .idle }
  | .done => s

/-- One global step of the pool under a scheduler action.  `tx.send(i)` is
accepted (appended at the tail) while some sender exists; after `drop(tx)`
it is impossible.  `close` is `drop(tx)`. -/
def poolStep (s : PoolState W) : PoolAction W → PoolState W
  | .send j =>
    if s.closed then s
    else { s with queue := s.queue ++ [j], sent := s.sent ++ [j] }
  | .close => { s with closed := true }
  | .work w => workStep s w

/-- Run a whole schedule of actions. -/
def poolRun (acts : List (PoolAction W)) (s : PoolState W) : PoolState W :=
  acts.foldl poolStep s

/-- The state right after `let rx = Arc::new(Mutex::new(rx));` and spawning
the workers: empty open channel, free lock, all workers at the top of the
loop. -/
def poolInit (W : Nat) : PoolState W :=
  { queue := [], closed := false, lockOwner := none,
    pc := fun _ => .idle, history := [], sent := [] }

/-- The C3 scenario: the channel was closed while the `jobs` backlog was
still buffered, workers all at the top of the loop. -/
def poolInitClosed (W : Nat) (jobs : List Nat) : PoolState W :=
  { queue := jobs, closed := true, lockOwner := none,
    pc := fun _ => .idle, history := [], sent := jobs }

/-- Every worker has observed `Err(_)` and broken out of its loop. -/
def allDone (s : PoolState W) : Prop :=
  ∀ w, s.pc w = Wpc.done

instance (s : PoolState W) : Decidable (allDone s) :=
  inferInstanceAs (Decidable (∀ w, s.pc w = Wpc.done))

/-- The inductive invariant of the worker-pool machine: dequeued jobs
followed by the still-buffered jobs are exactly the accepted sends in order;
a worker holds the receiver lock exactly while it is inside the dequeue
statement; and a worker can only have observed `Err` after the channel was
closed and the buffer was drained. -/
def PoolInv (s : PoolState W) : Prop :=
  (s.history.map Prod.snd ++ s.queue = s.sent) ∧
  (∀ v, s.pc v = Wpc.locked ↔ s.lockOwner = some v) ∧
  (∀ v, s.pc v = Wpc.done → s.closed = true) ∧
  (∀ v, s.pc v = Wpc.done → s.queue = [])

/-- A concrete shutdown schedule for one worker and two jobs: both jobs are
sent, the sender is dropped, and the worker loops until it observes `Err`. -/
def c1Acts : List (PoolAction 1) :=
  [.send 5, .send 7, .close, .work 0, .work 0, .work 0, .work 0,
   .work 0, .work 0, .work 0, .work 0]

/-- A concrete drain schedule for one worker over the closed backlog `[3]`. -/
def c3Acts : List (PoolAction 1) :=
  [.work 0, .work 0, .work 0, .work 0, .work 0]

/-- A concrete schedule that leaves the single worker processing job `5`. -/
def c6Acts : List (PoolAction 1) :=
  [.send 5, .work 0, .work 0]

/-! ## Definitions: shared counter
(`arc_mutex`, src/concurrency.rs lines 175-197, and `tests::test_arc_mutex`,
lines 477-496)

Each of the `n` spawned threads runs
`let mut num = counter.lock().unwrap(); *num += 1;`: acquire the mutex,
read the current value through the guard, write the value plus one,
release the mutex when the guard goes out of scope.  The read and the
write are separate machine steps; mutual exclusion is what makes them
atomic as a pair. -/

/-- Program counter of one incrementing thread: before `lock()`, holding
the fresh guard, holding the guard with the read value in hand, after the
write, and after the guard was dropped. -/
inductive Cpc where
  | start
  | locked
  | readv (v : Nat)
  | wrote
  | done
deriving DecidableEq

/-- Global state of the counter example: the protected value, the mutex
owner, and each thread's program counter. -/
structure CounterState (n : Nat) where
  value : Nat
  owner : Option (Fin n)
  pc : Fin n → Cpc

/-- One scheduler step of thread `t`: acquire the free mutex, read the
counter through the guard, write the incremented value, drop the guard.
A thread blocked on the held mutex leaves the state unchanged. -/
def counterStep (s : CounterState n) (t : Fin n) : CounterState n :=
  match s.pc t with
  | .start =>
    if s.owner = none then
      { s with owner := some t, pc := Function.update s.pc t .locked }
    else s
  | .locked => { s with pc := Function.update s.pc t (.readv s.value) }
  | .readv v => { s with value := v + 1, pc := Function.update s.pc t .wrote }
  | .wrote => { s with owner := none, pc := Function.update s.pc t .done }
  | .done => s

/-- Run a whole schedule of thread steps. -/
def counterRun (sched : List (Fin n)) (s : CounterState n) : CounterState n :=
  sched.foldl counterStep s

/-- Initial state: counter at `v0`, mutex free, all threads before `lock()`. -/
def counterInit (n : Nat) (v0 : Nat) : CounterState n :=
  { value := v0, owner := none, pc := fun _ => .start }

/-- Every thread has finished its increment and dropped its guard. -/
def countersDone (s : CounterState n) : Prop :=
  ∀ t, s.pc t = Cpc.done

instance (s : CounterState n) : Decidable (countersDone s) :=
  inferInstanceAs (Decidable (∀ t, s.pc t = Cpc.done))

/-- Whether a thread's increment has already reached the shared value. -/
def applied : Cpc → Bool
  | .wrote => true
  | .done => true
  | _ => false

/-- The inductive invariant of the counter machine: a thread is in its
critical section exactly while it owns the mutex, a read value in hand is
still the current value (nobody else can write meanwhile), and the counter
equals the initial value plus the number of increments already applied. -/
def CounterInv (v0 : Nat) (s : CounterState n) : Prop :=
  (∀ t, (s.pc t = Cpc.locked ∨ (∃ v, s.pc t = Cpc.readv v) ∨ s.pc t = Cpc.wrote)
      ↔ s.owner = some t) ∧
  (∀ t v, s.pc t = Cpc.readv v → v = s.value) ∧
  s.value = v0 + (Finset.univ.filter (fun t => applied (s.pc t) = true)).card

/-! ## Definitions: ordered two-lock acquisition
(`deadlock_prevention`, src/concurrency.rs lines 258-295)

Both spawned threads acquire `lock1` first and `lock2` second (the code
marks the second closure "Same order!"), hold both guards, and drop both at
the end of the closure. -/

/-- Program counter of one of the two lock-ordered workers. -/
inductive Dpc where
  | start
  | hasFirst
  | hasBoth
  | done
deriving DecidableEq

/-- Global state of the two-lock example: the owner of each lock and each
worker's program counter. -/
structure DState where
  owner1 : Option (Fin 2)
  owner2 : Option (Fin 2)
  pc : Fin 2 → Dpc

/-- One scheduler step of worker `t`: acquire `lock1` if free, then acquire
`lock2` if free, then drop both guards.  A worker blocked on a held lock
leaves the state unchanged. -/
def dStep (s : DState) (t : Fin 2) : DState :=
  match s.pc t with
  | .start =>
    if s.owner1 = none then
      { s with owner1 := some t, pc := Function.update s.pc t .hasFirst }
    else s
  | .hasFirst =>
    if s.owner2 = none then
      { s with owner2 := some t, pc := Function.update s.pc t .hasBoth }
    else s
  | .hasBoth =>
    { owner1 := none, owner2 := none, pc := Function.update s.pc t .done }
  | .done => s

/-- Run a whole schedule of worker steps. -/
def dRun (sched : List (Fin 2)) (s : DState) : DState :=
  sched.foldl dStep s

/-- Initial state: both locks free, both workers before the first `lock()`. -/
def dInit : DState :=
  { owner1 := none, owner2 := none, pc := fun _ => .start }

/-- Worker `t` can take a step: the lock it waits on is free, or it is
ready to release. -/
def dEnabled (s : DState) (t : Fin 2) : Prop :=
  match s.pc t with
  | .start => s.owner1 = none
  | .hasFirst => s.owner2 = none
  | .hasBoth => True
  | .done => False

/-- A deadlock: some worker still has work to do, yet no worker can step. -/
def dDeadlocked (s : DState) : Prop :=
  (∃ t, s.pc t ≠ Dpc.done) ∧ ∀ t, ¬dEnabled s t

/-- Invariant of the ordered acquisition: a worker owns `lock1` exactly
from its first acquisition until release, and owns `lock2` exactly while it
holds both — in particular nobody ever holds `lock2` without `lock1`. -/
def DInv (s : DState) : Prop :=
  (∀ t, s.owner1 = some t ↔ (s.pc t = Dpc.hasFirst ∨ s.pc t = Dpc.hasBoth)) ∧
  (∀ t, s.owner2 = some t ↔ s.pc t = Dpc.hasBoth)

/-! ## Definitions: channel FIFO order
(`channel_multiple_messages`, src/concurrency.rs lines 87-110, and
`channel_multiple_producers`, lines 113-146)

An mpsc channel buffers sent values in arrival order and `recv` dequeues
from the head.  With two cloned senders, the arrival order at the queue is
some interleaving of the two producers' send sequences, each producer's own
sends arriving in its issuing order. -/

/-- A channel endpoint: buffered values in arrival order plus the
all-senders-dropped flag. -/
structure Chan (α : Type) where
  queue : List α
  closed : Bool

/-- `rx.recv()`: dequeue the head when available; `none` stands for no item
(blocking on an open empty channel, `Err` on a closed drained one). -/
def chanRecv (c : Chan α) : Option α × Chan α :=
  match c.queue with
  | x :: rest => (some x, { c with queue := rest })
  | [] => (none, c)

/-- Receive repeatedly until no item comes back: the `for received in rx`
loop of `channel_multiple_messages` once the sender is dropped.  The fuel
keeps the recursion structural; `chanDrain` supplies enough. -/
def chanDrainAux : Nat → Chan α → List α
  | 0, _ => []
  | fuel + 1, c =>
    match chanRecv c with
    | (some x, c2) => x :: chanDrainAux fuel c2
    | (none, _) => []

/-- Everything the consuming loop receives, in receive order. -/
def chanDrain (c : Chan α) : List α :=
  chanDrainAux c.queue.length c

/-- The arrival orders possible when two producers' send sequences merge at
one queue: any interleaving that keeps each producer's own issuing order. -/
inductive Interleave : List α → List α → List α → Prop
  | nil : Interleave [] [] []
  | left {x : α} {xs ys l : List α} :
      Interleave xs ys l → Interleave (x :: xs) ys (x :: l)
  | right {y : α} {xs ys l : List α} :
      Interleave xs ys l → Interleave xs (y :: ys) (y :: l)

/-- The messages of producer `p`, tagged with its identity, in issuing
order (`tx1.send(val)` inside the producer's own loop). -/
def fromProducer (p : Nat) (msgs : List Nat) : List (Nat × Nat) :=
  msgs.map (fun m => (p, m))

/-- The subsequence of a tagged message list that producer `p` sent. -/
def sentBy (p : Nat) (l : List (Nat × Nat)) : List Nat :=
  l.filterMap (fun x => if x.1 = p then some x.2 else none)

/-! ## Definitions: worker pool with a fallible handler (spec section 4.2)

The worker pool of `practical_patterns` runs an infallible job body (print
and sleep) and publishes no per-job Result; the spec's WorkerPool runs a
caller-supplied `handler : Job → Result` that may fail.  The machine below
is the pool machine extended with that missing part. -/

/-- Modelled from the spec: the state of the spec's WorkerPool whose
workers run a caller-supplied fallible handler and publish one Result per
Job ("if `handler` fails (raises an error) while processing one Job, that
failure is captured as an error Result for that Job only").  The source's
pool (src/concurrency.rs lines 354-384) has no fallible handler and no
published Results; queue, close flag, receiver lock, program counters and
the dequeue trace follow the source, `results` follows the spec. -/
structure HPoolState (W : Nat) where
  queue : List Nat
  closed : Bool
  lockOwner : Option (Fin W)
  pc : Fin W → Wpc
  history : List (Fin W × Nat)
  results : List (Fin W × Nat × Except String Nat)
  sent : List Nat

/-- Modelled from the spec: the worker micro-step with a fallible handler —
identical to `workStep` on dequeue, lock handling and shutdown, and
publishing `(w, j, handler j)` as the Result when the job body finishes,
error or not, before looping around. -/
def hWorkStep (handler : Nat → Except String Nat) (s : HPoolState W)
    (w : Fin W) : HPoolState W :=
  match s.pc w with
  | .idle =>
    if s.lockOwner = none then
      { s with lockOwner := some w, pc := Function.update s.pc w .locked }
    else s
  | .locked =>
    match s.queue with
    | j :: rest =>
      { s with queue := rest, lockOwner := none,
               pc := Function.update s.pc w (.processing j),
               history := s.history ++ [(w, j)] }
    | [] =>
      if s.closed then
        { s with lockOwner := none, pc := Function.update s.pc w .done }
      else s
  | .processing j =>
    { s with pc := Function.update s.pc w .idle,
             results := s.results ++ [(w, j, handler j)] }
  | .done => s

/-- Modelled from the spec: one global step of the fallible-handler pool
under a scheduler action. -/
def hPoolStep (handler : Nat → Except String Nat) (s : HPoolState W) :
    PoolAction W → HPoolState W
  | .send j =>
    if s.closed then s
    else { s with queue := s.queue ++ [j], sent := s.sent ++ [j] }
  | .close => { s with closed := true }
  | .work w => hWorkStep handler s w

/-- Run a schedule of the fallible-handler pool. -/
def hPoolRun (handler : Nat → Except String Nat)
    (acts : List (PoolAction W)) (s : HPoolState W) : HPoolState W :=
  acts.foldl (hPoolStep handler) s

/-- Initial fallible-handler pool state. -/
def hPoolInit (W : Nat) : HPoolState W :=
  { queue := [], closed := false, lockOwner := none,
    pc := fun _ => .idle, history := [], results := [], sent := [] }

/-- Every worker of the fallible-handler pool has shut down. -/
def hAllDone (s : HPoolState W) : Prop :=
  ∀ w, s.pc w = Wpc.done

instance (s : HPoolState W) : Decidable (hAllDone s) :=
  inferInstanceAs (Decidable (∀ w, s.pc w = Wpc.done))

/-- Whether a worker is mid-job, between its dequeue and its Result. -/
def isInFlight : Wpc → Bool
  | Wpc.processing _ => true
  | _ => false

/-- How many workers are mid-job. -/
def processingCount (s : HPoolState W) : Nat :=
  (Finset.univ.filter (fun v => isInFlight (s.pc v) = true)).card

/-- Invariant of the fallible-handler pool: the pool-machine invariant,
plus: published Results and mid-job workers together account for every
dequeue, and every published Result carries exactly the handler's outcome
on its job. -/
def HInv (handler : Nat → Except String Nat) (s : HPoolState W) : Prop :=
  (s.history.map Prod.snd ++ s.queue = s.sent) ∧
  (∀ v, s.pc v = Wpc.locked ↔ s.lockOwner = some v) ∧
  (∀ v, s.pc v = Wpc.done → s.closed = true) ∧
  (∀ v, s.pc v = Wpc.done → s.queue = []) ∧
  (s.results.length + processingCount s = s.history.length) ∧
  (∀ r ∈ s.results, r.2.2 = handler r.2.1)

/-- Handler for the C7 witness: fails on job `7`, succeeds otherwise. -/
def c7Handler : Nat → Except String Nat :=
  fun j => if j = 7 then Except.error "boom" else Except.ok j

/-- State for the C7 witness: job `7` was sent and dequeued; the single
worker is about to run the failing handler on it. -/
def c7State : HPoolState 1 :=
  hPoolRun c7Handler [.send 7, .work 0, .work 0] (hPoolInit 1)

/-! ## Theorems: fan-out / fan-in -/

/-- After executing completion order `order`, slot `i` holds `partials[i]?`
exactly when task `i` completed, and is otherwise untouched. -/
theorem execTasks_apply (partials : List R) (store : Nat → Option R)
    (order : List Nat) (i : Nat) :
    execTasks partials store order i =
      if i ∈ order then partials[i]? else store i := by
  induction order generalizing store with
  | nil => simp [execTasks]
  | cons j rest ih =>
    simp only [execTasks, ih]
    by_cases hmem : i ∈ rest
    · simp [hmem]
    · by_cases hij : i = j
      · subst hij
        simp [hmem, Function.update_apply]
      · simp [hmem, hij, Function.update_apply]

/-- Joining a set of indices whose slots are all filled succeeds and returns
the fillers in join order. -/
theorem joinHandles_eq_map (store : Nat → Option R) (g : Nat → R)
    (idxs : List Nat) (h : ∀ i ∈ idxs, store i = some (g i)) :
    joinHandles store idxs = some (idxs.map g) := by
  induction idxs with
  | nil => rfl
  | cons i rest ih =>
    have hi : store i = some (g i) := h i (by simp)
    have hrest := ih (fun j hj => h j (by simp [hj]))
    simp [joinHandles, hi, hrest]

/-- Reading a list by position over the range of its length recovers it. -/
theorem map_getD_range (l : List R) (d : R) :
    (List.range l.length).map (fun i => l.getD i d) = l := by
  induction l with
  | nil => rfl
  | cons a t ih =>
    rw [List.length_cons, List.range_succ_eq_map, List.map_cons, List.map_map]
    simp only [List.getD_cons_zero, Function.comp_def, List.getD_cons_succ]
    rw [ih]

/-- Core determinism fact: as soon as the completion order covers every task,
the fan-out/fan-in outcome is the spawn-order fold, whatever the order was:
joining in spawn order erases every trace of completion order. -/
theorem fanOutRun_eq_dispatch (items : List α) (chunkSize : Nat)
    (compute : List α → R) (reduce : R → R → R) (identity : R)
    (order : List Nat)
    (hcover : ∀ i < ((chunksOf chunkSize items).map compute).length, i ∈ order) :
    fanOutRun items chunkSize compute reduce identity order =
      some (dispatch_fan_out items chunkSize compute reduce identity) := by
  unfold fanOutRun dispatch_fan_out
  set partials := (chunksOf chunkSize items).map compute with hp
  have hjoin : joinHandles (execTasks partials (fun _ => none) order)
      (List.range partials.length)
      = some ((List.range partials.length).map (fun i => partials.getD i identity)) := by
    apply joinHandles_eq_map
    intro i hi
    rw [List.mem_range] at hi
    rw [execTasks_apply]
    rw [if_pos (hcover i hi)]
    rw [List.getElem?_eq_getElem hi]
    rw [List.getD_eq_getElem partials identity hi]
  rw [hjoin, map_getD_range]
  rfl

/-- A completion order that is a permutation of the task indices covers every
task, so the outcome is the spawn-order fold. -/
theorem fanOutRun_perm (items : List α) (chunkSize : Nat)
    (compute : List α → R) (reduce : R → R → R) (identity : R)
    (order : List Nat)
    (h : order.Perm (List.range ((chunksOf chunkSize items).map compute).length)) :
    fanOutRun items chunkSize compute reduce identity order =
      some (dispatch_fan_out items chunkSize compute reduce identity) := by
  apply fanOutRun_eq_dispatch
  intro i hi
  rw [h.mem_iff, List.mem_range]
  exact hi

/-- C5 (counterexample): the claimed equivalence is false for this code: no
reduction, however non-associative and non-commutative, makes the aggregate
depend on completion order, because the handles are joined in spawn order. -/
theorem fan_out_determinism_iff_claim_false : ¬fanOutDeterminismIffClaim := by
  rintro ⟨-, items, chunkSize, compute, reduce, identity, -, hnd⟩
  apply hnd
  intro order₁ order₂ h₁ h₂
  rw [fanOutRun_perm items chunkSize compute reduce identity order₁ h₁,
    fanOutRun_perm items chunkSize compute reduce identity order₂ h₂]

/-- C5 (amended): for every `reduce` — associative and commutative or not —
the fan-out/fan-in aggregate is deterministic and independent of task
completion order, because the partial results are folded in spawn order. -/
theorem fan_out_deterministic_every_reduce (items : List Int) (chunkSize : Nat)
    (compute : List Int → Int) (reduce : Int → Int → Int) (identity : Int)
    (order₁ order₂ : List Nat)
    (h₁ : order₁.Perm (List.range ((chunksOf chunkSize items).map compute).length))
    (h₂ : order₂.Perm (List.range ((chunksOf chunkSize items).map compute).length)) :
    fanOutRun items chunkSize compute reduce identity order₁ =
      fanOutRun items chunkSize compute reduce identity order₂ := by
  rw [fanOutRun_perm items chunkSize compute reduce identity order₁ h₁,
    fanOutRun_perm items chunkSize compute reduce identity order₂ h₂]

/-- Witness for the amended C5 at a concrete instance: two completion orders
of the two chunk tasks of `[1, 2, 3]`, reduced with (non-commutative,
non-associative) subtraction, agree. -/
theorem fan_out_deterministic_every_reduce_witness :
    List.Perm [1, 0]
        (List.range ((chunksOf 2 [(1 : Int), 2, 3]).map (fun l => l.sum)).length) ∧
    List.Perm [0, 1]
        (List.range ((chunksOf 2 [(1 : Int), 2, 3]).map (fun l => l.sum)).length) ∧
    fanOutRun [(1 : Int), 2, 3] 2 (fun l => l.sum) (fun a b => a - b) 0 [1, 0] =
      fanOutRun [(1 : Int), 2, 3] 2 (fun l => l.sum) (fun a b => a - b) 0 [0, 1] :=
  ⟨by decide, by decide,
    fan_out_deterministic_every_reduce [(1 : Int), 2, 3] 2 (fun l => l.sum)
      (fun a b => a - b) 0 [1, 0] [0, 1] (by decide) (by decide)⟩

/-- C10: the fan-out/fan-in implementation joins the task handles in spawn
order, so for every completion order (any permutation of the tasks), every
compute function and every reduction — associative/commutative or not — the
aggregate equals the canonical spawn-order result: it is deterministic across
runs. -/
theorem fan_out_spawn_order_join_deterministic (items : List α) (chunkSize : Nat)
    (compute : List α → R) (reduce : R → R → R) (identity : R)
    (order : List Nat)
    (h : order.Perm (List.range ((chunksOf chunkSize items).map compute).length)) :
    fanOutRun items chunkSize compute reduce identity order =
      some (dispatch_fan_out items chunkSize compute reduce identity) :=
  fanOutRun_perm items chunkSize compute reduce identity order h

/-- Witness for C10 at a concrete instance: tasks completing in reverse
order still produce the spawn-order aggregate, under subtraction. -/
theorem fan_out_spawn_order_join_deterministic_witness :
    List.Perm [1, 0]
        (List.range ((chunksOf 2 [(1 : Int), 2, 3]).map (fun l => l.sum)).length) ∧
    fanOutRun [(1 : Int), 2, 3] 2 (fun l => l.sum) (fun a b => a - b) 0 [1, 0] =
      some (dispatch_fan_out [(1 : Int), 2, 3] 2 (fun l => l.sum) (fun a b => a - b) 0) :=
  ⟨by decide,
    fan_out_spawn_order_join_deterministic [(1 : Int), 2, 3] 2 (fun l => l.sum)
      (fun a b => a - b) 0 [1, 0] (by decide)⟩

set_option maxRecDepth 20000 in
/-- C4: `parallel_computation` — the integers 1..=100, chunks of 25, sum of
squares per chunk, partial sums added — returns exactly 338350, and this
equals the same computation done single-threaded over the whole sequence. -/
theorem parallel_computation_result :
    parallel_computation_total = 338350 ∧
    parallel_computation_total = sumOfSquares parallelData := by
  constructor
  · decide
  · decide

/-! ## Theorems: worker pool -/

/-- The invariant holds in the initial pool state. -/
theorem poolInv_init (W : Nat) : PoolInv (poolInit W) := by
  refine ⟨rfl, ?_, ?_, ?_⟩ <;> intro v <;> simp [poolInit]

/-- The invariant holds in the closed-with-backlog scenario state. -/
theorem poolInv_initClosed (W : Nat) (jobs : List Nat) :
    PoolInv (poolInitClosed W jobs) := by
  refine ⟨rfl, ?_, ?_, ?_⟩ <;> intro v <;> simp [poolInitClosed]

/-- Every scheduler action preserves the pool invariant. -/
theorem poolInv_step {s : PoolState W} (h : PoolInv s) (a : PoolAction W) :
    PoolInv (poolStep s a) := by
  obtain ⟨h1, h2, h3, h4⟩ := h
  cases a with
  | send j =>
    simp only [poolStep]
    by_cases hc : s.closed
    · rw [if_pos hc]
      exact ⟨h1, h2, h3, h4⟩
    · rw [if_neg hc]
      refine ⟨?_, h2, ?_, ?_⟩
      · show List.map Prod.snd s.history ++ (s.queue ++ [j]) = s.sent ++ [j]
        rw [← List.append_assoc, h1]
      · intro v hv
        exact absurd (h3 v hv) hc
      · intro v hv
        exact absurd (h3 v hv) hc
  | close =>
    exact ⟨h1, h2, fun v _ => rfl, h4⟩
  | work w =>
    simp only [poolStep]
    cases hpc : s.pc w with
    | idle =>
      simp only [workStep, hpc]
      by_cases hfree : s.lockOwner = none
      · rw [if_pos hfree]
        refine ⟨h1, ?_, ?_, ?_⟩
        · intro v
          rcases eq_or_ne v w with rfl | hne
          · simp
          · simp only [Function.update_noteq hne, Option.some.injEq]
            constructor
            · intro hv
              rw [(h2 v).mp hv] at hfree
              exact absurd hfree (by simp)
            · intro hv
              exact absurd hv.symm hne
        · intro v hv
          rcases eq_or_ne v w with rfl | hne
          · simp only [Function.update_same] at hv
            exact absurd hv (by simp)
          · simp only [Function.update_noteq hne] at hv
            exact h3 v hv
        · intro v hv
          rcases eq_or_ne v w with rfl | hne
          · simp only [Function.update_same] at hv
            exact absurd hv (by simp)
          · simp only [Function.update_noteq hne] at hv
            exact h4 v hv
      · rw [if_neg hfree]
        exact ⟨h1, h2, h3, h4⟩
    | locked =>
      have howner : s.lockOwner = some w := (h2 w).mp hpc
      simp only [workStep, hpc]
      cases hq : s.queue with
      | cons j rest =>
        refine ⟨?_, ?_, ?_, ?_⟩
        · show List.map Prod.snd (s.history ++ [(w, j)]) ++ rest = s.sent
          rw [List.map_append, List.append_assoc]
          have := hq ▸ h1
          simpa using this
        · intro v
          rcases eq_or_ne v w with rfl | hne
          · simp
          · simp only [Function.update_noteq hne]
            constructor
            · intro hv
              have hv2 := (h2 v).mp hv
              rw [howner] at hv2
              exact absurd (Option.some_injective _ hv2.symm) hne
            · intro hv
              exact absurd hv (by simp)
        · intro v hv
          rcases eq_or_ne v w with rfl | hne
          · simp only [Function.update_same] at hv
            exact absurd hv (by simp)
          · simp only [Function.update_noteq hne] at hv
            exact h3 v hv
        · intro v hv
          rcases eq_or_ne v w with rfl | hne
          · simp only [Function.update_same] at hv
            exact absurd hv (by simp)
          · simp only [Function.update_noteq hne] at hv
            exact absurd hq (by rw [h4 v hv]; simp)
      | nil =>
        by_cases hc : s.closed
        · rw [if_pos hc]
          refine ⟨?_, ?_, ?_, fun v _ => rfl⟩
          · show List.map Prod.snd s.history ++ [] = s.sent
            rw [hq] at h1
            exact h1
          · intro v
            rcases eq_or_ne v w with rfl | hne
            · simp
            · simp only [Function.update_noteq hne]
              constructor
              · intro hv
                have hv2 := (h2 v).mp hv
                rw [howner] at hv2
                exact absurd (Option.some_injective _ hv2.symm) hne
              · intro hv
                exact absurd hv (by simp)
          · intro v hv
            rcases eq_or_ne v w with rfl | hne
            · exact hc
            · simp only [Function.update_noteq hne] at hv
              exact h3 v hv
        · rw [if_neg hc]
          exact ⟨h1, h2, h3, h4⟩
    | processing j =>
      simp only [workStep, hpc]
      refine ⟨h1, ?_, ?_, ?_⟩
      · intro v
        rcases eq_or_ne v w with rfl | hne
        · simp only [Function.update_same]
          constructor
          · intro hv
            exact absurd hv (by simp)
          · intro hv
            have := (h2 v).mpr hv
            rw [hpc] at this
            exact absurd this (by simp)
        · simp only [Function.update_noteq hne]
          exact h2 v
      · intro v hv
        rcases eq_or_ne v w with rfl | hne
        · simp only [Function.update_same] at hv
          exact absurd hv (by simp)
        · simp only [Function.update_noteq hne] at hv
          exact h3 v hv
      · intro v hv
        rcases eq_or_ne v w with rfl | hne
        · simp only [Function.update_same] at hv
          exact absurd hv (by simp)
        · simp only [Function.update_noteq hne] at hv
          exact h4 v hv
    | done =>
      simp only [workStep, hpc]
      exact ⟨h1, h2, h3, h4⟩

/-- The invariant holds after running any schedule from an invariant state. -/
theorem poolInv_run {s : PoolState W} (h : PoolInv s) (acts : List (PoolAction W)) :
    PoolInv (poolRun acts s) := by
  induction acts generalizing s with
  | nil => exact h
  | cons a rest ih => exact ih (poolInv_step h a)

/-- Once the senders are dropped the channel stays closed and no further
send is accepted. -/
theorem poolRun_closed {s : PoolState W} (h : s.closed = true)
    (acts : List (PoolAction W)) :
    (poolRun acts s).closed = true ∧ (poolRun acts s).sent = s.sent := by
  induction acts generalizing s with
  | nil => exact ⟨h, rfl⟩
  | cons a rest ih =>
    have hstep : (poolStep s a).closed = true ∧ (poolStep s a).sent = s.sent := by
      cases a with
      | send j => simp [poolStep, h]
      | close => exact ⟨rfl, rfl⟩
      | work w =>
        simp only [poolStep]
        cases hpc : s.pc w with
        | idle =>
          simp only [workStep, hpc]
          split <;> exact ⟨h, rfl⟩
        | locked =>
          simp only [workStep, hpc]
          cases hq : s.queue with
          | nil =>
            by_cases hc : s.closed = true
            · rw [if_pos hc]
              exact ⟨h, rfl⟩
            · rw [if_neg hc]
              exact ⟨h, rfl⟩
          | cons j rest => exact ⟨h, rfl⟩
        | processing j =>
          simp only [workStep, hpc]
          exact ⟨h, trivial⟩
        | done =>
          simp only [workStep, hpc]
          exact ⟨h, trivial⟩
    obtain ⟨hc, hs⟩ := hstep
    obtain ⟨hc2, hs2⟩ := ih hc
    exact ⟨hc2, hs.symm ▸ hs2⟩

/-- C1: under every schedule after which the pool has fully shut down (every
worker observed `Err` and broke out), the dequeue trace lists the accepted
sends exactly and in order: N submitted jobs yield exactly N processing
events, each submitted job identifier appears in exactly one event (the
identifiers being distinct), and no job is consumed by two workers — the
dequeue is atomic under the shared receiver lock, so each job is handed to
exactly one worker. -/
theorem worker_pool_exactly_once (W : Nat) (acts : List (PoolAction W))
    (hW : 0 < W) (h : allDone (poolRun acts (poolInit W))) :
    ((poolRun acts (poolInit W)).history.map Prod.snd
        = (poolRun acts (poolInit W)).sent) ∧
    (poolRun acts (poolInit W)).history.length
        = (poolRun acts (poolInit W)).sent.length ∧
    ((poolRun acts (poolInit W)).sent.Nodup →
      (∀ j ∈ (poolRun acts (poolInit W)).sent,
        ((poolRun acts (poolInit W)).history.map Prod.snd).count j = 1) ∧
      ∀ w₁ w₂ j, (w₁, j) ∈ (poolRun acts (poolInit W)).history →
        (w₂, j) ∈ (poolRun acts (poolInit W)).history → w₁ = w₂) := by
  obtain ⟨h1, h2, h3, h4⟩ := poolInv_run (poolInv_init W) acts
  have hq : (poolRun acts (poolInit W)).queue = [] := h4 ⟨0, hW⟩ (h ⟨0, hW⟩)
  have heq : (poolRun acts (poolInit W)).history.map Prod.snd
      = (poolRun acts (poolInit W)).sent := by
    rw [← h1, hq, List.append_nil]
  refine ⟨heq, ?_, ?_⟩
  · rw [← heq, List.length_map]
  · intro hnodup
    constructor
    · intro j hj
      rw [heq]
      exact List.count_eq_one_of_mem hnodup hj
    · intro w₁ w₂ j hm1 hm2
      have hnd : ((poolRun acts (poolInit W)).history.map Prod.snd).Nodup := by
        rw [heq]
        exact hnodup
      have hpair := List.inj_on_of_nodup_map hnd hm1 hm2 (by rfl)
      exact congrArg Prod.fst hpair

/-- Witness for C1: one worker, jobs `5` and `7` sent before the sender is
dropped, the worker loops to shutdown; the trace equals the sends. -/
theorem worker_pool_exactly_once_witness :
    0 < 1 ∧
    allDone (poolRun c1Acts (poolInit 1)) ∧
    (((poolRun c1Acts (poolInit 1)).history.map Prod.snd
        = (poolRun c1Acts (poolInit 1)).sent) ∧
      (poolRun c1Acts (poolInit 1)).history.length
        = (poolRun c1Acts (poolInit 1)).sent.length ∧
      ((poolRun c1Acts (poolInit 1)).sent.Nodup →
        (∀ j ∈ (poolRun c1Acts (poolInit 1)).sent,
          ((poolRun c1Acts (poolInit 1)).history.map Prod.snd).count j = 1) ∧
        ∀ w₁ w₂ j, (w₁, j) ∈ (poolRun c1Acts (poolInit 1)).history →
          (w₂, j) ∈ (poolRun c1Acts (poolInit 1)).history → w₁ = w₂)) :=
  ⟨Nat.one_pos, by decide,
    worker_pool_exactly_once 1 c1Acts Nat.one_pos (by decide)⟩

/-- C3: starting from a channel closed while the backlog `jobs` was still
buffered, whenever any worker has observed the `Closed` signal (`Err`,
program counter `done`), the whole backlog had already been dequeued: the
dequeue trace equals `jobs`, and every buffered job was delivered to some
worker.  Closing never discards a buffered job. -/
theorem closed_backlog_drained_first (W : Nat) (jobs : List Nat)
    (acts : List (PoolAction W)) (w : Fin W)
    (h : (poolRun acts (poolInitClosed W jobs)).pc w = Wpc.done) :
    ((poolRun acts (poolInitClosed W jobs)).history.map Prod.snd = jobs) ∧
    ∀ j ∈ jobs, ∃ v, (v, j) ∈ (poolRun acts (poolInitClosed W jobs)).history := by
  obtain ⟨h1, h2, h3, h4⟩ := poolInv_run (poolInv_initClosed W jobs) acts
  have hsent : (poolRun acts (poolInitClosed W jobs)).sent = jobs :=
    (poolRun_closed rfl acts).2
  have hq := h4 w h
  have heq : (poolRun acts (poolInitClosed W jobs)).history.map Prod.snd = jobs := by
    have h1b := h1
    rw [hq, List.append_nil] at h1b
    rw [h1b, hsent]
  refine ⟨heq, ?_⟩
  intro j hj
  have hj2 : j ∈ (poolRun acts (poolInitClosed W jobs)).history.map Prod.snd := by
    rw [heq]
    exact hj
  obtain ⟨⟨v, j2⟩, hmem, hj3⟩ := List.mem_map.mp hj2
  exact ⟨v, by rwa [show j2 = j from hj3] at hmem⟩

/-- Witness for C3: one worker drains the closed backlog `[3]` and only then
observes `Closed`; the trace is exactly `[3]`. -/
theorem closed_backlog_drained_first_witness :
    (poolRun c3Acts (poolInitClosed 1 [3])).pc 0 = Wpc.done ∧
    (((poolRun c3Acts (poolInitClosed 1 [3])).history.map Prod.snd = [3]) ∧
      ∀ j ∈ [3], ∃ v, (v, j) ∈ (poolRun c3Acts (poolInitClosed 1 [3])).history) :=
  ⟨by decide, closed_backlog_drained_first 1 [3] c3Acts 0 (by decide)⟩

/-- C6: in every reachable state of the pool, a worker that is running the
job body does not hold the receiver lock (the only lock in the pattern), and
whoever holds the receiver lock is exactly inside the dequeue statement —
`rx.lock().unwrap().recv()` drops its temporary guard before the `match`
body runs, so the lock is held only for the duration of the dequeue. -/
theorem worker_processes_without_lock (W : Nat)
    (acts : List (PoolAction W)) (w : Fin W) (j : Nat)
    (h : (poolRun acts (poolInit W)).pc w = Wpc.processing j) :
    (poolRun acts (poolInit W)).lockOwner ≠ some w ∧
    ∀ v, (poolRun acts (poolInit W)).lockOwner = some v →
      (poolRun acts (poolInit W)).pc v = Wpc.locked := by
  obtain ⟨h1, h2, h3, h4⟩ := poolInv_run (poolInv_init W) acts
  constructor
  · intro hown
    have hlk := (h2 w).mpr hown
    rw [h] at hlk
    exact absurd hlk (by simp)
  · intro v hv
    exact (h2 v).mpr hv

/-- Witness for C6: with the single worker processing job `5`, the receiver
lock is free. -/
theorem worker_processes_without_lock_witness :
    (poolRun c6Acts (poolInit 1)).pc 0 = Wpc.processing 5 ∧
    ((poolRun c6Acts (poolInit 1)).lockOwner ≠ some 0 ∧
      ∀ v, (poolRun c6Acts (poolInit 1)).lockOwner = some v →
        (poolRun c6Acts (poolInit 1)).pc v = Wpc.locked) :=
  ⟨by decide, worker_processes_without_lock 1 c6Acts 0 5 (by decide)⟩

/-! ## Theorems: shared counter -/

/-- Repointing a thread to a phase with the same applied-status does not
change how many increments have been applied. -/
theorem card_applied_update_eq (pc : Fin n → Cpc) (t : Fin n) (b : Cpc)
    (hb : applied b = applied (pc t)) :
    (Finset.univ.filter (fun u => applied (Function.update pc t b u) = true)).card
      = (Finset.univ.filter (fun u => applied (pc u) = true)).card := by
  congr 1
  apply Finset.filter_congr
  intro u _
  rcases eq_or_ne u t with rfl | hne
  · simp [Function.update_same, hb]
  · simp [Function.update_noteq hne]

/-- Moving a thread from a not-yet-applied phase to an applied phase raises
the number of applied increments by one. -/
theorem card_applied_update_succ (pc : Fin n → Cpc) (t : Fin n) (b : Cpc)
    (hold : applied (pc t) = false) (hnew : applied b = true) :
    (Finset.univ.filter (fun u => applied (Function.update pc t b u) = true)).card
      = (Finset.univ.filter (fun u => applied (pc u) = true)).card + 1 := by
  have hins : Finset.univ.filter (fun u => applied (Function.update pc t b u) = true)
      = insert t (Finset.univ.filter (fun u => applied (pc u) = true)) := by
    ext u
    rcases eq_or_ne u t with rfl | hne
    · simp [Function.update_same, hnew]
    · simp [Function.update_noteq hne, hne]
  rw [hins, Finset.card_insert_of_not_mem]
  simp [hold]

/-- The counter invariant holds initially. -/
theorem counterInv_init (n v0 : Nat) : CounterInv v0 (counterInit n v0) := by
  refine ⟨?_, ?_, ?_⟩
  · intro t
    simp [counterInit]
  · intro t v hv
    simp [counterInit] at hv
  · simp [counterInit, applied]

/-- Every thread step preserves the counter invariant. -/
theorem counterInv_step {s : CounterState n} {v0 : Nat}
    (h : CounterInv v0 s) (t : Fin n) : CounterInv v0 (counterStep s t) := by
  obtain ⟨h1, h2, h3⟩ := h
  cases hpc : s.pc t with
  | start =>
    simp only [counterStep, hpc]
    by_cases hfree : s.owner = none
    · rw [if_pos hfree]
      refine ⟨?_, ?_, ?_⟩
      · intro u
        rcases eq_or_ne u t with rfl | hne
        · simp
        · simp only [Function.update_noteq hne, Option.some.injEq]
          constructor
          · intro hu
            rw [(h1 u).mp hu] at hfree
            exact absurd hfree (by simp)
          · intro hu
            exact absurd hu.symm hne
      · intro u v hu
        rcases eq_or_ne u t with rfl | hne
        · simp only [Function.update_same] at hu
          exact absurd hu (by simp)
        · simp only [Function.update_noteq hne] at hu
          exact h2 u v hu
      · rw [h3]
        congr 1
        exact (card_applied_update_eq s.pc t Cpc.locked (by rw [hpc]; rfl)).symm
    · rw [if_neg hfree]
      exact ⟨h1, h2, h3⟩
  | locked =>
    have howner : s.owner = some t := (h1 t).mp (Or.inl hpc)
    simp only [counterStep, hpc]
    refine ⟨?_, ?_, ?_⟩
    · intro u
      rcases eq_or_ne u t with rfl | hne
      · simp [howner]
      · simp only [Function.update_noteq hne]
        exact h1 u
    · intro u v hu
      rcases eq_or_ne u t with rfl | hne
      · simp only [Function.update_same, Cpc.readv.injEq] at hu
        exact hu.symm
      · simp only [Function.update_noteq hne] at hu
        exact h2 u v hu
    · show s.value = v0 + (Finset.univ.filter
        (fun u => applied (Function.update s.pc t (Cpc.readv s.value) u) = true)).card
      rw [card_applied_update_eq s.pc t (Cpc.readv s.value) (by rw [hpc]; rfl)]
      exact h3
  | readv v =>
    have howner : s.owner = some t := (h1 t).mp (Or.inr (Or.inl ⟨v, hpc⟩))
    have hval : v = s.value := h2 t v hpc
    simp only [counterStep, hpc]
    refine ⟨?_, ?_, ?_⟩
    · intro u
      rcases eq_or_ne u t with rfl | hne
      · simp [howner]
      · simp only [Function.update_noteq hne]
        exact h1 u
    · intro u v2 hu
      rcases eq_or_ne u t with rfl | hne
      · simp only [Function.update_same] at hu
        exact absurd hu (by simp)
      · simp only [Function.update_noteq hne] at hu
        have hu2 := (h1 u).mp (Or.inr (Or.inl ⟨v2, hu⟩))
        rw [howner] at hu2
        exact absurd (Option.some_injective _ hu2.symm) hne
    · show v + 1 = v0 + _
      rw [card_applied_update_succ s.pc t Cpc.wrote (by rw [hpc]; rfl) rfl]
      rw [hval, h3]
      omega
  | wrote =>
    have howner : s.owner = some t := (h1 t).mp (Or.inr (Or.inr hpc))
    simp only [counterStep, hpc]
    refine ⟨?_, ?_, ?_⟩
    · intro u
      rcases eq_or_ne u t with rfl | hne
      · simp
      · simp only [Function.update_noteq hne]
        constructor
        · intro hu
          have hu2 := (h1 u).mp hu
          rw [howner] at hu2
          exact absurd (Option.some_injective _ hu2.symm) hne
        · intro hu
          exact absurd hu (by simp)
    · intro u v hu
      rcases eq_or_ne u t with rfl | hne
      · simp only [Function.update_same] at hu
        exact absurd hu (by simp)
      · simp only [Function.update_noteq hne] at hu
        exact h2 u v hu
    · rw [h3]
      congr 1
      exact (card_applied_update_eq s.pc t Cpc.done (by rw [hpc]; rfl)).symm
  | done =>
    simp only [counterStep, hpc]
    exact ⟨h1, h2, h3⟩

/-- The counter invariant holds after any schedule. -/
theorem counterInv_run {s : CounterState n} {v0 : Nat}
    (h : CounterInv v0 s) (sched : List (Fin n)) :
    CounterInv v0 (counterRun sched s) := by
  induction sched generalizing s with
  | nil => exact h
  | cons t rest ih => exact ih (counterInv_step h t)

/-- C2: for every number of threads `n`, every starting value `v0` and every
interleaving of the per-thread lock/read/write/unlock steps, once all `n`
threads have completed their `*num += 1` under the mutex, the shared counter
is exactly `v0 + n`: no update is lost and none is duplicated. -/
theorem shared_counter_adds_exactly (n v0 : Nat) (sched : List (Fin n))
    (h : countersDone (counterRun sched (counterInit n v0))) :
    (counterRun sched (counterInit n v0)).value = v0 + n := by
  obtain ⟨h1, h2, h3⟩ := counterInv_run (counterInv_init n v0) sched
  rw [h3]
  congr 1
  have hall : Finset.univ.filter
      (fun t => applied ((counterRun sched (counterInit n v0)).pc t) = true)
      = (Finset.univ : Finset (Fin n)) := by
    apply Finset.filter_true_of_mem
    intro t _
    rw [h t]
    rfl
  rw [hall, Finset.card_univ, Fintype.card_fin]

/-- Witness for C2: two threads each incrementing once from 0, run to
completion in a concrete interleaving, leave the counter at 2. -/
theorem shared_counter_adds_exactly_witness :
    countersDone (counterRun [0, 0, 0, 1, 0, 1, 1, 1, 1] (counterInit 2 0)) ∧
    (counterRun [0, 0, 0, 1, 0, 1, 1, 1, 1] (counterInit 2 0)).value = 0 + 2 :=
  ⟨by decide, shared_counter_adds_exactly 2 0 [0, 0, 0, 1, 0, 1, 1, 1, 1] (by decide)⟩

/-! ## Theorems: ordered two-lock acquisition -/

/-- The two-lock invariant holds initially. -/
theorem dInv_init : DInv dInit := by
  constructor <;> intro t <;> simp [dInit]

/-- Every worker step preserves the two-lock invariant. -/
theorem dInv_step {s : DState} (h : DInv s) (t : Fin 2) : DInv (dStep s t) := by
  obtain ⟨h1, h2⟩ := h
  cases hpc : s.pc t with
  | start =>
    simp only [dStep, hpc]
    by_cases hfree : s.owner1 = none
    · rw [if_pos hfree]
      constructor
      · intro u
        rcases eq_or_ne u t with rfl | hne
        · simp
        · simp only [Function.update_noteq hne, Option.some.injEq]
          constructor
          · intro hu
            exact absurd hu.symm hne
          · intro hu
            rw [(h1 u).mpr hu] at hfree
            exact absurd hfree (by simp)
      · intro u
        rcases eq_or_ne u t with rfl | hne
        · simp only [Function.update_same]
          constructor
          · intro hu
            have hb := (h2 u).mp hu
            rw [hpc] at hb
            exact absurd hb (by simp)
          · intro hu
            exact absurd hu (by simp)
        · simp only [Function.update_noteq hne]
          exact h2 u
    · rw [if_neg hfree]
      exact ⟨h1, h2⟩
  | hasFirst =>
    have howner : s.owner1 = some t := (h1 t).mpr (Or.inl hpc)
    simp only [dStep, hpc]
    by_cases hfree : s.owner2 = none
    · rw [if_pos hfree]
      constructor
      · intro u
        rcases eq_or_ne u t with rfl | hne
        · simp [howner]
        · simp only [Function.update_noteq hne]
          exact h1 u
      · intro u
        rcases eq_or_ne u t with rfl | hne
        · simp
        · simp only [Function.update_noteq hne, Option.some.injEq]
          constructor
          · intro hu
            exact absurd hu.symm hne
          · intro hu
            rw [(h2 u).mpr hu] at hfree
            exact absurd hfree (by simp)
    · rw [if_neg hfree]
      exact ⟨h1, h2⟩
  | hasBoth =>
    have howner2 : s.owner2 = some t := (h2 t).mpr hpc
    simp only [dStep, hpc]
    constructor
    · intro u
      rcases eq_or_ne u t with rfl | hne
      · simp
      · simp only [Function.update_noteq hne]
        constructor
        · intro hu
          exact absurd hu (by simp)
        · intro hu
          have hu1 := (h1 u).mpr hu
          have ht1 := (h1 t).mpr (Or.inr hpc)
          rw [ht1] at hu1
          exact absurd (Option.some_injective _ hu1) hne.symm
    · intro u
      rcases eq_or_ne u t with rfl | hne
      · simp
      · simp only [Function.update_noteq hne]
        constructor
        · intro hu
          exact absurd hu (by simp)
        · intro hu
          have hu2 := (h2 u).mpr hu
          rw [howner2] at hu2
          exact absurd (Option.some_injective _ hu2) hne.symm
  | done =>
    simp only [dStep, hpc]
    exact ⟨h1, h2⟩

/-- The two-lock invariant holds after any schedule. -/
theorem dInv_run {s : DState} (h : DInv s) (sched : List (Fin 2)) :
    DInv (dRun sched s) := by
  induction sched generalizing s with
  | nil => exact h
  | cons t rest ih => exact ih (dInv_step h t)

/-- In any state satisfying the invariant, the workers are not deadlocked:
whoever is furthest along the agreed lock order can always make progress. -/
theorem dInv_not_deadlocked {s : DState} (h : DInv s) : ¬dDeadlocked s := by
  obtain ⟨h1, h2⟩ := h
  rintro ⟨⟨t, ht⟩, hdis⟩
  have hboth : ∀ u, s.pc u = Dpc.hasBoth → False := by
    intro u hu
    have hd := hdis u
    rw [dEnabled, hu] at hd
    exact hd trivial
  have hfirst : ∀ u, s.pc u = Dpc.hasFirst → False := by
    intro u hu
    have hd := hdis u
    rw [dEnabled, hu] at hd
    cases ho2 : s.owner2 with
    | none => exact hd ho2
    | some v => exact hboth v ((h2 v).mp ho2)
  cases hpc : s.pc t with
  | done => exact ht hpc
  | hasBoth => exact hboth t hpc
  | hasFirst => exact hfirst t hpc
  | start =>
    have hd := hdis t
    rw [dEnabled, hpc] at hd
    cases ho1 : s.owner1 with
    | none => exact hd ho1
    | some v =>
      rcases (h1 v).mp ho1 with hv | hv
      · exact hfirst v hv
      · exact hboth v hv

/-- C9: two workers that both acquire the two shared locks in the one agreed
order (`lock1` before `lock2`, never the reverse while holding the other)
never deadlock: under every schedule of their steps, reachable states always
leave some unfinished worker able to proceed. -/
theorem ordered_lock_acquisition_never_deadlocks (sched : List (Fin 2)) :
    ¬dDeadlocked (dRun sched dInit) :=
  dInv_not_deadlocked (dInv_run dInv_init sched)

/-! ## Theorems: channel FIFO order -/

/-- With enough fuel, draining returns exactly the buffered queue in
order. -/
theorem chanDrainAux_eq (fuel : Nat) (c : Chan α) (h : c.queue.length ≤ fuel) :
    chanDrainAux fuel c = c.queue := by
  induction fuel generalizing c with
  | zero =>
    have : c.queue = [] := List.eq_nil_of_length_eq_zero (Nat.le_zero.mp h)
    rw [chanDrainAux, this]
  | succ fuel ih =>
    cases hq : c.queue with
    | nil => simp [chanDrainAux, chanRecv, hq]
    | cons x rest =>
      have hlen : rest.length ≤ fuel := by
        rw [hq] at h
        simpa using h
      simp only [chanDrainAux, chanRecv, hq]
      rw [ih { c with queue := rest } hlen]

/-- `recv` dequeues from the head in global FIFO arrival order: the
consuming loop receives exactly the arrivals, in arrival order. -/
theorem chanDrain_eq_queue (c : Chan α) : chanDrain c = c.queue :=
  chanDrainAux_eq c.queue.length c le_rfl

/-- Dropping the second source of an interleaving by a filter that ignores
it recovers the filtered first source. -/
theorem interleave_filterMap_left {f : α → Option β} {xs ys l : List α}
    (h : Interleave xs ys l) (hy : ∀ y ∈ ys, f y = none) :
    l.filterMap f = xs.filterMap f := by
  induction h with
  | nil => rfl
  | left h ih =>
    simp only [List.filterMap_cons]
    rw [ih hy]
  | right h ih =>
    rename_i y xs2 ys2 l2
    have hy0 : f y = none := hy y (by simp)
    simp only [List.filterMap_cons, hy0]
    exact ih (fun z hz => hy z (by simp [hz]))

/-- Dropping the first source of an interleaving by a filter that ignores
it recovers the filtered second source. -/
theorem interleave_filterMap_right {f : α → Option β} {xs ys l : List α}
    (h : Interleave xs ys l) (hx : ∀ x ∈ xs, f x = none) :
    l.filterMap f = ys.filterMap f := by
  induction h with
  | nil => rfl
  | left h ih =>
    rename_i x xs2 ys2 l2
    have hx0 : f x = none := hx x (by simp)
    simp only [List.filterMap_cons, hx0]
    exact ih (fun z hz => hx z (by simp [hz]))
  | right h ih =>
    simp only [List.filterMap_cons]
    rw [ih hx]

/-- Selecting producer `p` from its own tagged messages returns them all. -/
theorem sentBy_fromProducer (p : Nat) (msgs : List Nat) :
    sentBy p (fromProducer p msgs) = msgs := by
  induction msgs with
  | nil => rfl
  | cons m rest ih =>
    simp only [sentBy, fromProducer, List.map_cons, List.filterMap_cons] at ih ⊢
    simp [ih]

/-- A different producer's tagged messages are invisible to `p`'s filter. -/
theorem sentBy_none_of_ne (p q : Nat) (hqp : q ≠ p) (msgs : List Nat) :
    ∀ y ∈ fromProducer q msgs,
      (if y.1 = p then some y.2 else none : Option Nat) = none := by
  intro y hy
  obtain ⟨m, _, rfl⟩ := List.mem_map.mp hy
  simp [hqp]

/-- C8: whatever interleaving of the two producers' send sequences arrives
at the queue, the consuming loop receives exactly the arrival sequence in
FIFO order, and within it each producer's own messages appear exactly in
that producer's issuing order. -/
theorem channel_fifo_per_producer_order (p q : Nat) (hpq : p ≠ q)
    (msgs1 msgs2 : List Nat) (arrivals : List (Nat × Nat))
    (h : Interleave (fromProducer p msgs1) (fromProducer q msgs2) arrivals) :
    chanDrain { queue := arrivals, closed := true } = arrivals ∧
    sentBy p (chanDrain { queue := arrivals, closed := true }) = msgs1 ∧
    sentBy q (chanDrain { queue := arrivals, closed := true }) = msgs2 := by
  have hdrain : chanDrain { queue := arrivals, closed := true } = arrivals :=
    chanDrain_eq_queue _
  refine ⟨hdrain, ?_, ?_⟩
  · rw [hdrain]
    show arrivals.filterMap _ = msgs1
    rw [interleave_filterMap_left h (sentBy_none_of_ne p q (Ne.symm hpq) msgs2)]
    exact sentBy_fromProducer p msgs1
  · rw [hdrain]
    show arrivals.filterMap _ = msgs2
    rw [interleave_filterMap_right h (sentBy_none_of_ne q p hpq msgs1)]
    exact sentBy_fromProducer q msgs2

/-- Witness for C8: producer 1 sends `[10, 20]`, producer 2 sends `[30]`,
arriving interleaved as `10, 30, 20`; the receive order is the arrival
order and each producer's subsequence is its send order. -/
theorem channel_fifo_per_producer_order_witness :
    (1 : Nat) ≠ 2 ∧
    Interleave (fromProducer 1 [10, 20]) (fromProducer 2 [30])
      [(1, 10), (2, 30), (1, 20)] ∧
    (chanDrain { queue := [(1, 10), (2, 30), (1, 20)], closed := true }
        = [(1, 10), (2, 30), (1, 20)] ∧
      sentBy 1 (chanDrain { queue := [(1, 10), (2, 30), (1, 20)], closed := true })
        = [10, 20] ∧
      sentBy 2 (chanDrain { queue := [(1, 10), (2, 30), (1, 20)], closed := true })
        = [30]) :=
  ⟨by decide, Interleave.left (Interleave.right (Interleave.left Interleave.nil)),
    channel_fifo_per_producer_order 1 2 (by decide) [10, 20] [30]
      [(1, 10), (2, 30), (1, 20)]
      (Interleave.left (Interleave.right (Interleave.left Interleave.nil)))⟩

/-! ## Theorems: worker pool with a fallible handler -/

/-- Repointing one worker to a phase with the same in-flight status keeps
the filtered count unchanged. -/
theorem card_filter_update_congr {n : Nat} {β : Type} (f : β → Bool)
    (pc : Fin n → β) (t : Fin n) (b : β) (hb : f b = f (pc t)) :
    (Finset.univ.filter (fun u => f (Function.update pc t b u) = true)).card
      = (Finset.univ.filter (fun u => f (pc u) = true)).card := by
  congr 1
  apply Finset.filter_congr
  intro u _
  rcases eq_or_ne u t with rfl | hne
  · simp [Function.update_same, hb]
  · simp [Function.update_noteq hne]

/-- Repointing one worker from a non-counted to a counted phase raises the
filtered count by one. -/
theorem card_filter_update_add {n : Nat} {β : Type} (f : β → Bool)
    (pc : Fin n → β) (t : Fin n) (b : β)
    (hold : f (pc t) = false) (hnew : f b = true) :
    (Finset.univ.filter (fun u => f (Function.update pc t b u) = true)).card
      = (Finset.univ.filter (fun u => f (pc u) = true)).card + 1 := by
  have hins : Finset.univ.filter (fun u => f (Function.update pc t b u) = true)
      = insert t (Finset.univ.filter (fun u => f (pc u) = true)) := by
    ext u
    rcases eq_or_ne u t with rfl | hne
    · simp [Function.update_same, hnew]
    · simp [Function.update_noteq hne, hne]
  rw [hins, Finset.card_insert_of_not_mem]
  simp [hold]

/-- Repointing one worker from a counted to a non-counted phase lowers the
filtered count by one. -/
theorem card_filter_update_sub {n : Nat} {β : Type} (f : β → Bool)
    (pc : Fin n → β) (t : Fin n) (b : β)
    (hold : f (pc t) = true) (hnew : f b = false) :
    (Finset.univ.filter (fun u => f (pc u) = true)).card
      = (Finset.univ.filter (fun u => f (Function.update pc t b u) = true)).card + 1 := by
  have hins : Finset.univ.filter (fun u => f (pc u) = true)
      = insert t (Finset.univ.filter (fun u => f (Function.update pc t b u) = true)) := by
    ext u
    rcases eq_or_ne u t with rfl | hne
    · simp [Function.update_same, hnew, hold]
    · simp [Function.update_noteq hne, hne]
  rw [hins, Finset.card_insert_of_not_mem]
  simp [Function.update_same, hnew]

/-- The fallible-handler pool invariant holds initially. -/
theorem hInv_init (W : Nat) (handler : Nat → Except String Nat) :
    HInv handler (hPoolInit W) := by
  refine ⟨rfl, ?_, ?_, ?_, ?_, ?_⟩
  · intro v
    simp [hPoolInit]
  · intro v hv
    simp [hPoolInit] at hv
  · intro v hv
    simp [hPoolInit] at hv
  · simp [hPoolInit, processingCount, isInFlight]
  · intro r hr
    simp [hPoolInit] at hr

/-- Every scheduler action preserves the fallible-handler pool invariant. -/
theorem hInv_step {W : Nat} {handler : Nat → Except String Nat}
    {s : HPoolState W} (h : HInv handler s) (a : PoolAction W) :
    HInv handler (hPoolStep handler s a) := by
  obtain ⟨h1, h2, h3, h4, h5, h6⟩ := h
  cases a with
  | send j =>
    simp only [hPoolStep]
    by_cases hc : s.closed
    · rw [if_pos hc]
      exact ⟨h1, h2, h3, h4, h5, h6⟩
    · rw [if_neg hc]
      refine ⟨?_, h2, ?_, ?_, h5, h6⟩
      · show List.map Prod.snd s.history ++ (s.queue ++ [j]) = s.sent ++ [j]
        rw [← List.append_assoc, h1]
      · intro v hv
        exact absurd (h3 v hv) hc
      · intro v hv
        exact absurd (h3 v hv) hc
  | close =>
    exact ⟨h1, h2, fun v _ => rfl, h4, h5, h6⟩
  | work w =>
    simp only [hPoolStep]
    cases hpc : s.pc w with
    | idle =>
      simp only [hWorkStep, hpc]
      by_cases hfree : s.lockOwner = none
      · rw [if_pos hfree]
        refine ⟨h1, ?_, ?_, ?_, ?_, h6⟩
        · intro v
          rcases eq_or_ne v w with rfl | hne
          · simp
          · simp only [Function.update_noteq hne, Option.some.injEq]
            constructor
            · intro hv
              rw [(h2 v).mp hv] at hfree
              exact absurd hfree (by simp)
            · intro hv
              exact absurd hv.symm hne
        · intro v hv
          rcases eq_or_ne v w with rfl | hne
          · simp only [Function.update_same] at hv
            exact absurd hv (by simp)
          · simp only [Function.update_noteq hne] at hv
            exact h3 v hv
        · intro v hv
          rcases eq_or_ne v w with rfl | hne
          · simp only [Function.update_same] at hv
            exact absurd hv (by simp)
          · simp only [Function.update_noteq hne] at hv
            exact h4 v hv
        · simp only [processingCount]
          rw [card_filter_update_congr isInFlight s.pc w Wpc.locked (by rw [hpc]; rfl)]
          exact h5
      · rw [if_neg hfree]
        exact ⟨h1, h2, h3, h4, h5, h6⟩
    | locked =>
      have howner : s.lockOwner = some w := (h2 w).mp hpc
      simp only [hWorkStep, hpc]
      cases hq : s.queue with
      | cons j rest =>
        refine ⟨?_, ?_, ?_, ?_, ?_, h6⟩
        · show List.map Prod.snd (s.history ++ [(w, j)]) ++ rest = s.sent
          rw [List.map_append, List.append_assoc]
          have hrw := hq ▸ h1
          simpa using hrw
        · intro v
          rcases eq_or_ne v w with rfl | hne
          · simp
          · simp only [Function.update_noteq hne]
            constructor
            · intro hv
              have hv2 := (h2 v).mp hv
              rw [howner] at hv2
              exact absurd (Option.some_injective _ hv2.symm) hne
            · intro hv
              exact absurd hv (by simp)
        · intro v hv
          rcases eq_or_ne v w with rfl | hne
          · simp only [Function.update_same] at hv
            exact absurd hv (by simp)
          · simp only [Function.update_noteq hne] at hv
            exact h3 v hv
        · intro v hv
          rcases eq_or_ne v w with rfl | hne
          · simp only [Function.update_same] at hv
            exact absurd hv (by simp)
          · simp only [Function.update_noteq hne] at hv
            exact absurd hq (by rw [h4 v hv]; simp)
        · show s.results.length + processingCount
              { s with queue := rest, lockOwner := none,
                       pc := Function.update s.pc w (Wpc.processing j),
                       history := s.history ++ [(w, j)] }
              = (s.history ++ [(w, j)]).length
          simp only [processingCount]
          rw [card_filter_update_add isInFlight s.pc w (Wpc.processing j)
            (by rw [hpc]; rfl) rfl]
          rw [List.length_append]
          simp only [List.length_cons, List.length_nil]
          have h5b : s.results.length
              + (Finset.univ.filter (fun v => isInFlight (s.pc v) = true)).card
              = s.history.length := h5
          omega
      | nil =>
        by_cases hc : s.closed
        · rw [if_pos hc]
          refine ⟨?_, ?_, ?_, fun v _ => rfl, ?_, h6⟩
          · show List.map Prod.snd s.history ++ [] = s.sent
            rw [hq] at h1
            exact h1
          · intro v
            rcases eq_or_ne v w with rfl | hne
            · simp
            · simp only [Function.update_noteq hne]
              constructor
              · intro hv
                have hv2 := (h2 v).mp hv
                rw [howner] at hv2
                exact absurd (Option.some_injective _ hv2.symm) hne
              · intro hv
                exact absurd hv (by simp)
          · intro v hv
            rcases eq_or_ne v w with rfl | hne
            · exact hc
            · simp only [Function.update_noteq hne] at hv
              exact h3 v hv
          · simp only [processingCount]
            rw [card_filter_update_congr isInFlight s.pc w Wpc.done (by rw [hpc]; rfl)]
            exact h5
        · rw [if_neg hc]
          exact ⟨h1, h2, h3, h4, h5, h6⟩
    | processing j =>
      simp only [hWorkStep, hpc]
      refine ⟨h1, ?_, ?_, ?_, ?_, ?_⟩
      · intro v
        rcases eq_or_ne v w with rfl | hne
        · simp only [Function.update_same]
          constructor
          · intro hv
            exact absurd hv (by simp)
          · intro hv
            have hv2 := (h2 v).mpr hv
            rw [hpc] at hv2
            exact absurd hv2 (by simp)
        · simp only [Function.update_noteq hne]
          exact h2 v
      · intro v hv
        rcases eq_or_ne v w with rfl | hne
        · simp only [Function.update_same] at hv
          exact absurd hv (by simp)
        · simp only [Function.update_noteq hne] at hv
          exact h3 v hv
      · intro v hv
        rcases eq_or_ne v w with rfl | hne
        · simp only [Function.update_same] at hv
          exact absurd hv (by simp)
        · simp only [Function.update_noteq hne] at hv
          exact h4 v hv
      · show (s.results ++ [(w, j, handler j)]).length + processingCount
            { s with pc := Function.update s.pc w Wpc.idle,
                     results := s.results ++ [(w, j, handler j)] }
            = s.history.length
        have hsub := card_filter_update_sub isInFlight s.pc w Wpc.idle
          (by rw [hpc]; rfl) rfl
        have h5b : s.results.length
            + (Finset.univ.filter (fun v => isInFlight (s.pc v) = true)).card
            = s.history.length := h5
        simp only [processingCount]
        rw [List.length_append]
        simp only [List.length_cons, List.length_nil]
        omega
      · intro r hr
        rcases List.mem_append.mp hr with hr1 | hr2
        · exact h6 r hr1
        · rw [List.mem_singleton.mp hr2]
    | done =>
      simp only [hWorkStep, hpc]
      exact ⟨h1, h2, h3, h4, h5, h6⟩

/-- The fallible-handler pool invariant holds after any schedule. -/
theorem hInv_run {W : Nat} {handler : Nat → Except String Nat}
    {s : HPoolState W} (h : HInv handler s) (acts : List (PoolAction W)) :
    HInv handler (hPoolRun handler acts s) := by
  induction acts generalizing s with
  | nil => exact h
  | cons a rest ih => exact ih (hInv_step h a)

/-- C7 (spec-modelled handler): when the handler fails on a dequeued job,
the failing run is captured as an error Result for exactly that job, the
worker that ran it goes back to the top of its loop (it is not torn down),
every other worker's program counter — and the queue, the receiver lock and
the channel state — are untouched; and the pool keeps processing: under any
schedule that reaches full shutdown, every accepted job was dequeued (in
FIFO order), exactly one Result was published per job, and every published
Result is exactly the handler's outcome, errors included. -/
theorem handler_failure_isolated (W : Nat) (handler : Nat → Except String Nat)
    (s : HPoolState W) (w : Fin W) (j : Nat) (e : String)
    (hpc : s.pc w = Wpc.processing j) (herr : handler j = Except.error e) :
    ((hWorkStep handler s w).results = s.results ++ [(w, j, Except.error e)] ∧
      (hWorkStep handler s w).pc w = Wpc.idle ∧
      (∀ v, v ≠ w → (hWorkStep handler s w).pc v = s.pc v) ∧
      (hWorkStep handler s w).queue = s.queue ∧
      (hWorkStep handler s w).lockOwner = s.lockOwner ∧
      (hWorkStep handler s w).closed = s.closed ∧
      (hWorkStep handler s w).sent = s.sent) ∧
    ∀ acts : List (PoolAction W), 0 < W →
      hAllDone (hPoolRun handler acts (hPoolInit W)) →
      ((hPoolRun handler acts (hPoolInit W)).history.map Prod.snd
          = (hPoolRun handler acts (hPoolInit W)).sent ∧
        (hPoolRun handler acts (hPoolInit W)).results.length
          = (hPoolRun handler acts (hPoolInit W)).sent.length ∧
        ∀ r ∈ (hPoolRun handler acts (hPoolInit W)).results,
          r.2.2 = handler r.2.1) := by
  constructor
  · have hstep : hWorkStep handler s w
        = { s with pc := Function.update s.pc w Wpc.idle,
                   results := s.results ++ [(w, j, handler j)] } := by
      simp only [hWorkStep, hpc]
    rw [hstep, herr]
    refine ⟨rfl, by simp, ?_, rfl, rfl, rfl, rfl⟩
    intro v hv
    simp only [Function.update_noteq hv]
  · intro acts hW hdone
    obtain ⟨h1, h2, h3, h4, h5, h6⟩ := hInv_run (hInv_init W handler) acts
    have hq : (hPoolRun handler acts (hPoolInit W)).queue = [] :=
      h4 ⟨0, hW⟩ (hdone ⟨0, hW⟩)
    have heq : (hPoolRun handler acts (hPoolInit W)).history.map Prod.snd
        = (hPoolRun handler acts (hPoolInit W)).sent := by
      rw [← h1, hq, List.append_nil]
    have hzero : processingCount (hPoolRun handler acts (hPoolInit W)) = 0 := by
      simp only [processingCount]
      rw [Finset.card_eq_zero, Finset.filter_eq_empty_iff]
      intro v _
      rw [hdone v]
      simp [isInFlight]
    refine ⟨heq, ?_, h6⟩
    rw [hzero, Nat.add_zero] at h5
    rw [h5, ← heq, List.length_map]

/-- Witness for C7: one worker, job `7`, a handler that fails on `7`: the
failure is published as an error Result for job `7`, the worker loops on,
and a full run of the same pool shuts down with one Result per job. -/
theorem handler_failure_isolated_witness :
    c7State.pc 0 = Wpc.processing 7 ∧
    c7Handler 7 = Except.error "boom" ∧
    (((hWorkStep c7Handler c7State 0).results
          = c7State.results ++ [(0, 7, Except.error "boom")] ∧
        (hWorkStep c7Handler c7State 0).pc 0 = Wpc.idle ∧
        (∀ v, v ≠ 0 → (hWorkStep c7Handler c7State 0).pc v = c7State.pc v) ∧
        (hWorkStep c7Handler c7State 0).queue = c7State.queue ∧
        (hWorkStep c7Handler c7State 0).lockOwner = c7State.lockOwner ∧
        (hWorkStep c7Handler c7State 0).closed = c7State.closed ∧
        (hWorkStep c7Handler c7State 0).sent = c7State.sent) ∧
      ∀ acts : List (PoolAction 1), 0 < 1 →
        hAllDone (hPoolRun c7Handler acts (hPoolInit 1)) →
        ((hPoolRun c7Handler acts (hPoolInit 1)).history.map Prod.snd
            = (hPoolRun c7Handler acts (hPoolInit 1)).sent ∧
          (hPoolRun c7Handler acts (hPoolInit 1)).results.length
            = (hPoolRun c7Handler acts (hPoolInit 1)).sent.length ∧
          ∀ r ∈ (hPoolRun c7Handler acts (hPoolInit 1)).results,
            r.2.2 = c7Handler r.2.1)) :=
  ⟨by decide, rfl,
    handler_failure_isolated 1 c7Handler c7State 0 7 "boom" (by decide) rfl⟩

end Concurrency
